import Mathlib

/-!
Verification of the maki target-extraction engine.

The Rust sources (`src/makefile.rs`, `src/cache.rs`, `src/main.rs`,
`src/target.rs`) are shallowly embedded below.  Rust strings are modeled
as lists of Unicode characters (`Str := List Char`); the byte positions
returned by `str::find` coincide with character positions on the inputs
the heuristics are meant for (the code itself mixes byte positions with
`chars().nth`, which only agree on ASCII text, so the character-level
reading is the intended one).  File-system access, path
canonicalization and the SHA-256 function from the external `sha2` crate
are abstracted as explicit parameters; everything that is code of the
repository is translated structurally.
-/

namespace Maki

/-- Rust `&str` / `String`, modeled as a list of characters. -/
abbrev Str := List Char

/-- Model of `str::trim_start` (drop leading whitespace). -/
def trimStart (s : Str) : Str := s.dropWhile Char.isWhitespace

/-- Model of `str::trim_end` (drop trailing whitespace). -/
def trimEnd (s : Str) : Str := (s.reverse.dropWhile Char.isWhitespace).reverse

/-- Model of `str::trim`. -/
def trim (s : Str) : Str := trimEnd (trimStart s)

/-- Model of `str::find(pat)` for a substring pattern: position of the first
occurrence of `pat` in `s`. -/
def findSub (pat : Str) : Str → Option Nat
  | [] => if pat.isEmpty then some 0 else none
  | c :: rest =>
    if pat.isPrefixOf (c :: rest) then some 0
    else (findSub pat rest).map (· + 1)

/-- Model of `str::find(char)`: position of the first occurrence of `c`. -/
def findChar (c : Char) (s : Str) : Option Nat := s.findIdx? (fun a => a == c)

/-- `src/makefile.rs` `is_variable_assignment`: a plain variable assignment
`VAR := v`, `VAR ?= v`, `VAR += v` or `VAR = v` (the operator not preceded by
a colon; for bare `=` the neighbours must not form `:=`, `+=`, `?=` or `==`). -/
def is_variable_assignment (ln : Str) : Bool :=
  (match findSub [':', '='] ln with
   | some pos => !((ln.take pos).contains ':')
   | none => false) ||
  (match findSub ['?', '='] ln with
   | some pos => !((ln.take pos).contains ':')
   | none => false) ||
  (match findSub ['+', '='] ln with
   | some pos => !((ln.take pos).contains ':')
   | none => false) ||
  (match findChar '=' ln with
   | some pos =>
     decide (0 < pos) &&
     (ln[pos - 1]? != some ':') &&
     (ln[pos - 1]? != some '+') &&
     (ln[pos - 1]? != some '?') &&
     (ln[pos + 1]? != some '=') &&
     !((ln.take pos).contains ':')
   | none => false)

/-- `src/makefile.rs` `is_target_specific_variable`: a line of the shape
`target: VAR := value` (after the first colon, an identifier followed by an
assignment operator). -/
def is_target_specific_variable (ln : Str) : Bool :=
  match findChar ':' ln with
  | none => false
  | some first_colon =>
    let after_trimmed := trimStart (ln.drop (first_colon + 1))
    match after_trimmed.findIdx?
        (fun c => c.isWhitespace || c == ':' || c == '?' || c == '+' || c == '=') with
    | none => false
    | some space_pos =>
      let potential_var := after_trimmed.take space_pos
      if !potential_var.isEmpty &&
          potential_var.all (fun c => c.isAlphanum || c == '_') then
        let rest := trimStart (after_trimmed.drop space_pos)
        [':', '='].isPrefixOf rest || ['?', '='].isPrefixOf rest ||
        ['+', '='].isPrefixOf rest || ['='].isPrefixOf rest
      else false

/-- The character class `[A-Za-z0-9._/\-%]` of the target regex. -/
def isTargetNameChar (c : Char) : Bool :=
  c.isAlphanum || c == '.' || c == '_' || c == '/' || c == '-' || c == '%'

/-- Compiled form of the anchored regex `^([A-Za-z0-9._/\-%]+)\s*:` used by
`parse_makefile_content`.  The greedy `+` takes the maximal run of name
characters (backtracking cannot succeed because a name character is neither
whitespace nor `:`), then `\s*` skips whitespace and a literal `:` must
follow; the capture is the name run. -/
def target_regex_capture (ln : Str) : Option Str :=
  let name := ln.takeWhile isTargetNameChar
  if name.isEmpty then none
  else
    match trimStart (ln.dropWhile isTargetNameChar) with
    | ':' :: _ => some name
    | _ => none

/-- `src/target.rs` `RequiredVar`. -/
structure RequiredVar where
  name : Str
  hint : Option Str
deriving DecidableEq

/-- `src/target.rs` `Target`. -/
structure Target where
  name : Str
  description : Option Str
  file : Str
  line : Nat
  required_vars : List RequiredVar
deriving DecidableEq

/-- `src/makefile.rs` `ParseOptions`. -/
structure ParseOptions where
  include_private : Bool := false
  include_patterns : Bool := false

/-- Finish one accumulated (reversed) line, stripping one trailing carriage
return the way `str::lines` does. -/
def finishLine (acc : Str) : Str :=
  (match acc with
   | '\r' :: acc0 => acc0
   | acc0 => acc0).reverse

/-- Helper for `splitLines`; the first argument accumulates the current line
in reverse. -/
def splitLinesAux : Str → Str → List Str
  | acc, [] => if acc.isEmpty then [] else [finishLine acc]
  | acc, '\n' :: rest => finishLine acc :: splitLinesAux [] rest
  | acc, c :: rest => splitLinesAux (c :: acc) rest

/-- Model of `str::lines`: split at newlines, drop one trailing `\r` per
line, no empty line for a trailing terminator. -/
def splitLines (s : Str) : List Str := splitLinesAux [] s

/-- The preceding-comment walk of `extract_description`, nearest comment
first: collect trimmed comment lines (skipping empty ones), step over a blank
line only when a comment line is just above it, stop at anything else. -/
def descCommentsRev (lines : List Str) : Nat → List Str
  | 0 => []
  | i + 1 =>
    let prev_line := trim (lines.getD i [])
    if prev_line.head? == some '#' then
      let comment := trim (prev_line.dropWhile (fun c => c == '#'))
      if comment.isEmpty then descCommentsRev lines i
      else comment :: descCommentsRev lines i
    else if prev_line.isEmpty then
      if 0 < i ∧ (trim (lines.getD (i - 1) [])).head? = some '#' then
        descCommentsRev lines i
      else []
    else []

/-- The preceding-comment fallback of `extract_description`: reverse the
collected comments to source order and join with single spaces. -/
def descFromComments (lines : List Str) (target_line : Nat) : Option Str :=
  let comments := descCommentsRev lines target_line
  if comments.isEmpty then none
  else some (List.intercalate [' '] comments.reverse)

/-- `src/makefile.rs` `extract_description`: inline `##` text when non-empty,
otherwise the preceding comment block. -/
def extract_description (lines : List Str) (target_line : Nat) : Option Str :=
  let target := lines.getD target_line []
  match findSub ['#', '#'] target with
  | some pos =>
    let desc := trim (target.drop (pos + 2))
    if !desc.isEmpty then some desc
    else descFromComments lines target_line
  | none => descFromComments lines target_line

/-- `[A-Z]` of the variable regexes. -/
def isUpperChar (c : Char) : Bool := decide ('A' ≤ c) && decide (c ≤ 'Z')

/-- `[A-Z0-9_]`, the tail class of a variable name. -/
def isVarNameChar (c : Char) : Bool := isUpperChar c || c.isDigit || c == '_'

/-- A regex word character `[A-Za-z0-9_]`, used for the `\b` boundary. -/
def isWordChar (c : Char) : Bool := c.isAlphanum || c == '_'

/-- `[^\s,\)]`, the value class of the comment-hint regex. -/
def isHintValueChar (c : Char) : Bool := !(c.isWhitespace || c == ',' || c == ')')

/-- One attempted match of the comment-hint regex
`\b([A-Z][A-Z0-9_]*)=([^\s,\)]+)` at the current position; `prevWord` says
whether the character just before is a word character (the `\b` boundary).
Both quantified classes are greedy and backtracking cannot succeed (a name
character is never `=`; nothing follows the value), so the maximal runs are
the captures.  Returns the captures and the length of the whole match. -/
def tryHintMatch (prevWord : Bool) : Str → Option ((Str × Str) × Nat)
  | c :: rest =>
    if prevWord || !isUpperChar c then none
    else
      let nameTail := rest.takeWhile isVarNameChar
      match rest.dropWhile isVarNameChar with
      | '=' :: rest2 =>
        let value := rest2.takeWhile isHintValueChar
        if value.isEmpty then none
        else some ((c :: nameTail, value), nameTail.length + value.length + 2)
      | _ => none
  | [] => none

/-- Left-to-right non-overlapping scan of the comment-hint regex, as
`Regex::captures_iter` produces it.  `fuel` only drives termination; every
step consumes at least one character, so `length` fuel is never exhausted. -/
def hintScanAux : Nat → Bool → Str → List (Str × Str)
  | 0, _, _ => []
  | _ + 1, _, [] => []
  | fuel + 1, prevWord, c :: rest =>
    match tryHintMatch prevWord (c :: rest) with
    | some ((nm, value), len) =>
      (nm, value) :: hintScanAux fuel (isWordChar (value.getLast?.getD ' ')) ((c :: rest).drop len)
    | none => hintScanAux fuel (isWordChar c) rest

/-- All `VAR=value` hint matches in a comment text. -/
def hintScan (s : Str) : List (Str × Str) := hintScanAux s.length false s

/-- One attempted match of the recipe-variable regex
`\$[\(\{]([A-Z][A-Z0-9_]*)[\)\}]`; the char literals `'\x7b'`/`'\x7d'` are
the curly braces.  Returns the capture and the length of the whole match. -/
def tryRecipeMatch : Str → Option (Str × Nat)
  | '$' :: b :: c :: rest =>
    if (b == '(' || b == '\x7b') && isUpperChar c then
      let nameTail := rest.takeWhile isVarNameChar
      match rest.dropWhile isVarNameChar with
      | d :: _ =>
        if d == ')' || d == '\x7d' then some (c :: nameTail, nameTail.length + 4)
        else none
      | [] => none
    else none
  | _ => none

/-- Left-to-right non-overlapping scan of the recipe-variable regex. -/
def recipeScanAux : Nat → Str → List Str
  | 0, _ => []
  | _ + 1, [] => []
  | fuel + 1, c :: rest =>
    match tryRecipeMatch (c :: rest) with
    | some (nm, len) => nm :: recipeScanAux fuel ((c :: rest).drop len)
    | none => recipeScanAux fuel rest

/-- All `$(VAR)` / `${VAR}` references in one recipe line. -/
def recipeVarNames (ln : Str) : List Str := recipeScanAux ln.length ln

/-- The built-in make variables ignored by the recipe scan (`builtin_vars`
in `extract_required_vars`). -/
def builtin_vars : List Str :=
  ["CC", "CXX", "CFLAGS", "CXXFLAGS", "LDFLAGS", "LDLIBS", "AR", "AS",
   "CPP", "FC", "M2C", "PC", "CO", "GET", "LEX", "YACC", "LINT",
   "MAKEFLAGS", "MAKECMDGOALS", "CURDIR", "SHELL", "MAKE", "MAKELEVEL",
   "@", "<", "^", "?", "*", "%", "+", "|"].map String.data

/-- `HashMap::insert` on an association list with unique keys: replace the
value of an existing key in place, otherwise append. -/
def insertAssoc {β : Type} (k : Str) (v : β) : List (Str × β) → List (Str × β)
  | [] => [(k, v)]
  | (k', v') :: rest => if k' = k then (k, v) :: rest else (k', v') :: insertAssoc k v rest

/-- `HashMap::contains_key`. -/
def containsKey {β : Type} (k : Str) (m : List (Str × β)) : Bool :=
  m.any (fun p => p.1 == k)

/-- `HashMap::get`. -/
def lookupAssoc {β : Type} (k : Str) : List (Str × β) → Option β
  | [] => none
  | (k', v') :: rest => if k' = k then some v' else lookupAssoc k rest

/-- The `var_hints : HashMap<String, Option<String>>` of
`extract_required_vars`, as an association list. -/
abbrev VarMap := List (Str × Option Str)

/-- The comment-walk of `extract_required_vars` (unlike the description walk
it keeps empty comments), nearest comment first. -/
def varCommentsRev (lines : List Str) : Nat → List Str
  | 0 => []
  | i + 1 =>
    let prev_line := trim (lines.getD i [])
    if prev_line.head? == some '#' then
      trim (prev_line.dropWhile (fun c => c == '#')) :: varCommentsRev lines i
    else if prev_line.isEmpty then
      if 0 < i ∧ (trim (lines.getD (i - 1) [])).head? = some '#' then
        varCommentsRev lines i
      else []
    else []

/-- The comment text assembled by `extract_required_vars`: the raw text after
an inline `##` marker, then each preceding comment, each followed by one
space. -/
def comment_text (lines : List Str) (target_line : Nat) : Str :=
  let target := lines.getD target_line []
  let inline :=
    match findSub ['#', '#'] target with
    | some pos => target.drop (pos + 2) ++ [' ']
    | none => []
  inline ++ (varCommentsRev lines target_line).foldl (fun acc c => acc ++ c ++ [' ']) []

/-- The recipe lines scanned by `extract_required_vars`: lines after the
declaration until the first non-empty line starting with neither tab nor
space (empty lines are scanned too and contribute nothing). -/
def recipe_lines : List Str → List Str
  | [] => []
  | l :: ls =>
    if l.head? != some '\t' && l.head? != some ' ' && !l.isEmpty then []
    else l :: recipe_lines ls

/-- One recipe-variable occurrence: skip built-ins, then insert with no hint
unless the variable is already tracked. -/
def addRecipeVar (m : VarMap) (nm : Str) : VarMap :=
  if builtin_vars.contains nm then m
  else if containsKey nm m then m
  else insertAssoc nm none m

/-- The `var_hints` map of `extract_required_vars` after the comment phase:
every `VAR=value` match found in the comment text is inserted (overwriting). -/
def comment_hints (lines : List Str) (target_line : Nat) : VarMap :=
  (hintScan (comment_text lines target_line)).foldl
    (fun m p => insertAssoc p.1 (some p.2) m) []

/-- The `var_hints` map after both phases of `extract_required_vars`:
comment hints first, then recipe references only when the name is absent. -/
def var_hints (lines : List Str) (target_line : Nat) : VarMap :=
  (recipe_lines (lines.drop (target_line + 1))).foldl
    (fun m l => (recipeVarNames l).foldl addRecipeVar m)
    (comment_hints lines target_line)

/-- Stable insertion for the model of `Vec::sort_by` (a stable sort): the new
element moves past `b` only when `b` is strictly smaller. -/
def insertSorted {α : Type} (le : α → α → Bool) (a : α) : List α → List α
  | [] => [a]
  | b :: bs => if le b a && !le a b then b :: insertSorted le a bs else a :: b :: bs

/-- Model of `Vec::sort_by`: a stable sort by the comparator `le`. -/
def sortBy {α : Type} (le : α → α → Bool) : List α → List α
  | [] => []
  | a :: as => insertSorted le a (sortBy le as)

/-- Lexicographic order on strings by Unicode scalar value — the order of
Rust's `String::cmp` (UTF-8 byte order coincides with scalar-value order). -/
def strLe : Str → Str → Bool
  | [], _ => true
  | _ :: _, [] => false
  | a :: as, b :: bs =>
    if a.toNat < b.toNat then true
    else if b.toNat < a.toNat then false
    else strLe as bs

/-- The comparator `|a, b| a.name.cmp(&b.name)` on required variables. -/
def requiredVarLe (a b : RequiredVar) : Bool := strLe a.name b.name

/-- The comparator `|a, b| a.name.cmp(&b.name)` on targets. -/
def targetLe (a b : Target) : Bool := strLe a.name b.name

/-- Final phase of `extract_required_vars`: materialize the hash map and sort
by name.  Canonically the association-list order is used; the map order is
irrelevant after sorting (claim C9). -/
def finalizeVars (m : VarMap) : List RequiredVar :=
  sortBy requiredVarLe (m.map (fun p => RequiredVar.mk p.1 p.2))

/-- `src/makefile.rs` `extract_required_vars`. -/
def extract_required_vars (lines : List Str) (target_line : Nat) : List RequiredVar :=
  finalizeVars (var_hints lines target_line)

/-- Loop body of `parse_makefile_content` over the enumerated lines, with the
running 0-based index and the `seen_names` set.  `rv` supplies the required
variables for a declaration at a given line index; `parse_makefile_content`
instantiates it with `extract_required_vars`, and keeping it a parameter lets
claim C9 quantify over the hash-map iteration order. -/
def parseAux (lines : List Str) (file : Str) (options : ParseOptions)
    (rv : Nat → List RequiredVar) : List Str → Nat → List Str → List Target
  | [], _, _ => []
  | l :: rest, line_num, seen =>
    let trimmed := trim l
    if trimmed.isEmpty || trimmed.head? == some '#' then
      parseAux lines file options rv rest (line_num + 1) seen
    else if is_variable_assignment trimmed || is_target_specific_variable trimmed then
      parseAux lines file options rv rest (line_num + 1) seen
    else
      match target_regex_capture trimmed with
      | none => parseAux lines file options rv rest (line_num + 1) seen
      | some target_name =>
        if target_name.contains '%' && !options.include_patterns then
          parseAux lines file options rv rest (line_num + 1) seen
        else if target_name.head? == some '_' && !options.include_private then
          parseAux lines file options rv rest (line_num + 1) seen
        else if seen.contains target_name then
          parseAux lines file options rv rest (line_num + 1) seen
        else
          { name := target_name, description := extract_description lines line_num,
            file := file, line := line_num + 1, required_vars := rv line_num } ::
          parseAux lines file options rv rest (line_num + 1) (target_name :: seen)

/-- `src/makefile.rs` `parse_makefile_content`.  The two regex literals are
fixed and valid, so the two `Regex::new(..)?` calls always succeed; their
compiled forms are `target_regex_capture` and `contains '%'`.  The only
remaining exit is `Ok`. -/
def parse_makefile_content (content : Str) (file : Str) (options : ParseOptions) :
    Except Str (List Target) :=
  let lines := splitLines content
  Except.ok (parseAux lines file options (fun i => extract_required_vars lines i) lines 0 [])

/-- `parse_makefile_content` with the hash map of each target's variables
materialized in an arbitrary order `ord` before the final sort (Rust's
`HashMap` iteration order is unspecified). -/
def parse_makefile_content_ord (ord : Nat → VarMap) (content : Str) (file : Str)
    (options : ParseOptions) : Except Str (List Target) :=
  let lines := splitLines content
  Except.ok (parseAux lines file options (fun i => finalizeVars (ord i)) lines 0 [])

/-- `src/cache.rs` `CacheEntry`. -/
structure CacheEntry where
  content_hash : Str
  modified_time : Nat
  targets : List Target
deriving DecidableEq

/-- `src/cache.rs` `Cache`; `entries` is the `HashMap<String, CacheEntry>`
keyed by canonicalized path, as an association list. -/
structure Cache where
  version : Nat
  entries : List (Str × CacheEntry)
deriving DecidableEq

/-- `Cache::CURRENT_VERSION`. -/
def CURRENT_VERSION : Nat := 1

/-- `Cache::new`: the fresh empty cache — current version, no entries. -/
def Cache.new : Cache := ⟨CURRENT_VERSION, []⟩

/-- The observable states of the persisted cache file when `Cache::load`
runs: the well-known cache path may be undeterminable or the file unreadable
(both modeled by `unreadable`), the file may be missing, its content may fail
to parse as the serialized `Cache` shape (`malformed`), or it parses into a
`Cache` value. -/
inductive CacheFileState where
  | missing
  | unreadable
  | malformed
  | parsed (c : Cache)
deriving DecidableEq

/-- `src/cache.rs` `Cache::load`: a missing file yields a fresh cache, read
and parse failures propagate as `Err`, and a version other than
`CURRENT_VERSION` yields a fresh cache. -/
def Cache.load : CacheFileState → Except Str Cache
  | .missing => .ok Cache.new
  | .unreadable => .error "Failed to read cache file".data
  | .malformed => .error "Failed to parse cache file".data
  | .parsed c => if c.version ≠ CURRENT_VERSION then .ok Cache.new else .ok c

/-- The call pattern `Cache::load().unwrap_or_else(|_| Cache::new())` through
which `get_targets` and `get_targets_for_file` in `src/main.rs` load the
cache: an `Err` from `Cache::load` also becomes the fresh empty cache, so
loading never fails the caller. -/
def load_or_new (st : CacheFileState) : Cache :=
  match Cache.load st with
  | .ok c => c
  | .error _ => Cache.new

/-- Ambient behaviour of the platform during one cache operation:
`Path::canonicalize`, `fs::read_to_string`, and the chain computing the
best-effort modification time in seconds.  All three live outside the
repository (std library / OS), so they are abstracted as functions returning
`Option`; the SHA-256 of the external `sha2` crate (`compute_hash`) is
likewise abstracted as a `hashFn : Str → Str` parameter below. -/
structure FileSystem where
  canonicalize : Str → Option Str
  read_to_string : Str → Option Str
  modified_time : Str → Option Nat

/-- `src/cache.rs` `Cache::is_entry_valid`: re-read the file (by its original
path) and compare the hash of the current content with the stored hash; a
read failure means invalid. -/
def Cache.is_entry_valid (hashFn : Str → Str) (fs : FileSystem)
    (makefile_path : Str) (entry : CacheEntry) : Bool :=
  match fs.read_to_string makefile_path with
  | some content => hashFn content == entry.content_hash
  | none => false

/-- `src/cache.rs` `Cache::get`: canonicalize, look up by canonical path,
return the targets only for a valid entry; every failure is `none`. -/
def Cache.get (hashFn : Str → Str) (fs : FileSystem) (c : Cache)
    (makefile_path : Str) : Option (List Target) :=
  match fs.canonicalize makefile_path with
  | none => none
  | some abs_path =>
    match lookupAssoc abs_path c.entries with
    | none => none
    | some entry =>
      if Cache.is_entry_valid hashFn fs makefile_path entry then some entry.targets
      else none

/-- `src/cache.rs` `Cache::set`: canonicalize and read (both errors
propagate), hash the content, record the best-effort modification time
(default 0), and upsert the entry under the canonical path. -/
def Cache.set (hashFn : Str → Str) (fs : FileSystem) (c : Cache)
    (makefile_path : Str) (targets : List Target) : Except Str Cache :=
  match fs.canonicalize makefile_path with
  | none => Except.error "Failed to get absolute path".data
  | some abs_path =>
    match fs.read_to_string makefile_path with
    | none => Except.error "Failed to read Makefile".data
    | some content =>
      let entry : CacheEntry :=
        ⟨hashFn content, (fs.modified_time makefile_path).getD 0, targets⟩
      Except.ok { c with entries := insertAssoc abs_path entry c.entries }

/-- The per-file accumulation loop shared by `get_targets` in `src/main.rs`
and `parse_all_makefiles` in `src/makefile.rs`: keep a target only if its
name has not been seen yet. -/
def dedupByName (seen : List Str) : List Target → List Target
  | [] => []
  | t :: ts =>
    if seen.contains t.name then dedupByName seen ts
    else t :: dedupByName (t.name :: seen) ts

/-- The merge `get_targets` performs across files: each discovered file
contributes its (cached or freshly parsed) target list in discovery order,
the concatenation is de-duplicated by first-seen name, and the result is
sorted by name. -/
def merge_targets (per_file : List (List Target)) : List Target :=
  sortBy targetLe (dedupByName [] per_file.flatten)

/-! Order lemmas for `strLe`, and correctness of the `sortBy` model. -/

lemma char_toNat_inj {a b : Char} (h : a.toNat = b.toNat) : a = b := by
  unfold Char.toNat at h
  exact Char.eq_of_val_eq (UInt32.eq_of_val_eq (Fin.eq_of_val_eq h))

lemma strLe_total : ∀ a b : Str, (strLe a b || strLe b a) = true := by
  intro a
  induction a with
  | nil => intro b; cases b <;> simp [strLe]
  | cons x xs ih =>
    intro b
    cases b with
    | nil => simp [strLe]
    | cons y ys =>
      rcases Nat.lt_trichotomy x.toNat y.toNat with h | h | h
      · simp [strLe, h]
      · simp [strLe, h, Nat.lt_irrefl, ih ys]
      · simp [strLe, h, Nat.lt_asymm h]

lemma strLe_trans : ∀ a b c : Str, strLe a b = true → strLe b c = true → strLe a c = true := by
  intro a
  induction a with
  | nil => intro b c _ _; rfl
  | cons x xs ih =>
    intro b c hab hbc
    cases b with
    | nil => exact absurd hab (by simp [strLe])
    | cons y ys =>
      cases c with
      | nil => exact absurd hbc (by simp [strLe])
      | cons z zs =>
        rcases Nat.lt_trichotomy x.toNat y.toNat with hxy | hxy | hxy <;>
          rcases Nat.lt_trichotomy y.toNat z.toNat with hyz | hyz | hyz
        · simp [strLe, Nat.lt_trans hxy hyz]
        · simp [strLe, hyz ▸ hxy]
        · simp [strLe, Nat.lt_asymm hyz, hyz] at hbc
        · simp [strLe, hxy ▸ hyz]
        · simp only [strLe, hxy, hyz, Nat.lt_irrefl, if_false] at hab hbc ⊢
          exact ih ys zs hab hbc
        · simp [strLe, Nat.lt_asymm hyz, hyz] at hbc
        · simp [strLe, Nat.lt_asymm hxy, hxy] at hab
        · simp [strLe, Nat.lt_asymm hxy, hxy] at hab
        · simp [strLe, Nat.lt_asymm hxy, hxy] at hab

lemma strLe_antisymm : ∀ a b : Str, strLe a b = true → strLe b a = true → a = b := by
  intro a
  induction a with
  | nil =>
    intro b _ h2
    cases b with
    | nil => rfl
    | cons y ys => simp [strLe] at h2
  | cons x xs ih =>
    intro b h1 h2
    cases b with
    | nil => simp [strLe] at h1
    | cons y ys =>
      rcases Nat.lt_trichotomy x.toNat y.toNat with h | h | h
      · simp [strLe, h, Nat.lt_asymm h] at h2
      · obtain rfl : x = y := char_toNat_inj h
        simp only [strLe, Nat.lt_irrefl, if_false] at h1 h2
        rw [ih ys h1 h2]
      · simp [strLe, h, Nat.lt_asymm h] at h1

lemma insertSorted_perm {α : Type} (le : α → α → Bool) (a : α) :
    ∀ l : List α, (insertSorted le a l).Perm (a :: l) := by
  intro l
  induction l with
  | nil => exact List.Perm.refl _
  | cons b bs ih =>
    simp only [insertSorted]
    split
    · exact (ih.cons b).trans (List.Perm.swap a b bs)
    · exact List.Perm.refl _

lemma sortBy_perm {α : Type} (le : α → α → Bool) : ∀ l : List α, (sortBy le l).Perm l := by
  intro l
  induction l with
  | nil => exact List.Perm.refl _
  | cons a as ih => exact (insertSorted_perm le a (sortBy le as)).trans (ih.cons a)

lemma insertSorted_sorted {α : Type} (le : α → α → Bool)
    (htot : ∀ a b, (le a b || le b a) = true)
    (htrans : ∀ a b c, le a b = true → le b c = true → le a c = true)
    (a : α) : ∀ l : List α, l.Pairwise (fun x y => le x y = true) →
    (insertSorted le a l).Pairwise (fun x y => le x y = true) := by
  intro l
  induction l with
  | nil => intro _; simp [insertSorted]
  | cons b bs ih =>
    intro hs
    rw [List.pairwise_cons] at hs
    obtain ⟨hb, hbs⟩ := hs
    simp only [insertSorted]
    split
    case isTrue hcond =>
      rw [Bool.and_eq_true, Bool.not_eq_eq_eq_not, Bool.not_true] at hcond
      rw [List.pairwise_cons]
      refine ⟨?_, ih hbs⟩
      intro y hy
      have hy' : y ∈ a :: bs := (insertSorted_perm le a bs).mem_iff.mp hy
      rcases List.mem_cons.mp hy' with rfl | hy''
      · exact hcond.1
      · exact hb y hy''
    case isFalse hcond =>
      have hab : le a b = true := by
        rcases Bool.or_eq_true_iff.mp (htot a b) with h | h
        · exact h
        · by_cases h' : le a b = true
          · exact h'
          · exact absurd (by simp [h, h']) hcond
      rw [List.pairwise_cons]
      refine ⟨?_, List.pairwise_cons.mpr ⟨hb, hbs⟩⟩
      intro y hy
      rcases List.mem_cons.mp hy with rfl | hy'
      · exact hab
      · exact htrans a b y hab (hb y hy')

lemma sortBy_sorted {α : Type} (le : α → α → Bool)
    (htot : ∀ a b, (le a b || le b a) = true)
    (htrans : ∀ a b c, le a b = true → le b c = true → le a c = true) :
    ∀ l : List α, (sortBy le l).Pairwise (fun x y => le x y = true) := by
  intro l
  induction l with
  | nil => exact List.Pairwise.nil
  | cons a as ih => exact insertSorted_sorted le htot htrans a (sortBy le as) ih

/-- Two sorted lists with the same elements and pairwise distinct keys are
equal: sortedness by key plus key uniqueness pins the order. -/
lemma sorted_key_eq {α : Type} (key : α → Str) {l₁ l₂ : List α}
    (hp : l₁.Perm l₂)
    (hs₁ : l₁.Pairwise (fun x y => strLe (key x) (key y) = true))
    (hs₂ : l₂.Pairwise (fun x y => strLe (key x) (key y) = true))
    (hn : (l₁.map key).Nodup) : l₁ = l₂ := by
  have hne₁ : l₁.Pairwise (fun x y => key x ≠ key y) := List.pairwise_map.mp hn
  have hn₂ : (l₂.map key).Nodup := ((hp.map key).nodup_iff).mp hn
  have hne₂ : l₂.Pairwise (fun x y => key x ≠ key y) := List.pairwise_map.mp hn₂
  haveI : IsAntisymm α (fun x y => strLe (key x) (key y) = true ∧ key x ≠ key y) :=
    ⟨fun a b hab hba => absurd (strLe_antisymm _ _ hab.1 hba.1) hab.2⟩
  exact List.eq_of_perm_of_sorted (r := fun x y => strLe (key x) (key y) = true ∧ key x ≠ key y)
    hp (hs₁.and hne₁) (hs₂.and hne₂)

/-! Association-list lemmas for the hash-map model. -/

lemma lookupAssoc_insertAssoc_self {β : Type} (k : Str) (v : β) :
    ∀ m : List (Str × β), lookupAssoc k (insertAssoc k v m) = some v := by
  intro m
  induction m with
  | nil => simp [insertAssoc, lookupAssoc]
  | cons p rest ih =>
    obtain ⟨k', v'⟩ := p
    simp only [insertAssoc]
    split
    case isTrue h => simp [lookupAssoc]
    case isFalse h => simp [lookupAssoc, h, ih]

lemma lookupAssoc_insertAssoc_ne {β : Type} {k k' : Str} (v : β) (h : k' ≠ k) :
    ∀ m : List (Str × β), lookupAssoc k (insertAssoc k' v m) = lookupAssoc k m := by
  intro m
  induction m with
  | nil => simp [insertAssoc, lookupAssoc, h]
  | cons p rest ih =>
    obtain ⟨k'', v''⟩ := p
    simp only [insertAssoc]
    split
    case isTrue h2 =>
      subst h2
      simp [lookupAssoc, h]
    case isFalse h2 =>
      simp only [lookupAssoc]
      split
      · rfl
      · exact ih

lemma mem_insertAssoc {β : Type} {x : Str × β} {k : Str} {v : β} :
    ∀ {m : List (Str × β)}, x ∈ insertAssoc k v m → x = (k, v) ∨ x ∈ m := by
  intro m
  induction m with
  | nil => intro h; simp [insertAssoc] at h; exact Or.inl h
  | cons p rest ih =>
    intro h
    obtain ⟨k', v'⟩ := p
    simp only [insertAssoc] at h
    split at h
    case isTrue h2 =>
      rcases List.mem_cons.mp h with rfl | h3
      · exact Or.inl rfl
      · exact Or.inr (List.mem_cons_of_mem _ h3)
    case isFalse h2 =>
      rcases List.mem_cons.mp h with rfl | h3
      · exact Or.inr (List.mem_cons_self _ _)
      · rcases ih h3 with h4 | h4
        · exact Or.inl h4
        · exact Or.inr (List.mem_cons_of_mem _ h4)

lemma lookupAssoc_mem {β : Type} {k : Str} {v : β} :
    ∀ {m : List (Str × β)}, lookupAssoc k m = some v → (k, v) ∈ m := by
  intro m
  induction m with
  | nil => intro h; cases h
  | cons p rest ih =>
    intro h
    obtain ⟨k', v'⟩ := p
    simp only [lookupAssoc] at h
    split at h
    case isTrue h2 =>
      obtain rfl : v' = v := by injection h
      subst h2
      exact List.mem_cons_self _ _
    case isFalse h2 =>
      exact List.mem_cons_of_mem _ (ih h)

/-- Keys of the association-list hash-map model are pairwise distinct. -/
def keysNodup {β : Type} (m : List (Str × β)) : Prop := (m.map Prod.fst).Nodup

lemma keysNodup_insertAssoc {β : Type} (k : Str) (v : β) :
    ∀ {m : List (Str × β)}, keysNodup m → keysNodup (insertAssoc k v m) := by
  intro m
  induction m with
  | nil => intro _; simp [insertAssoc, keysNodup]
  | cons p rest ih =>
    intro hm
    obtain ⟨k', v'⟩ := p
    unfold keysNodup at hm
    rw [List.map_cons, List.nodup_cons] at hm
    obtain ⟨hk', hrest⟩ := hm
    simp only [insertAssoc]
    split
    case isTrue h2 =>
      subst h2
      unfold keysNodup
      rw [List.map_cons, List.nodup_cons]
      exact ⟨hk', hrest⟩
    case isFalse h2 =>
      unfold keysNodup
      rw [List.map_cons, List.nodup_cons]
      constructor
      · intro hmem
        obtain ⟨x, hx, hfst⟩ := List.mem_map.mp hmem
        rcases mem_insertAssoc hx with rfl | hx'
        · exact h2 hfst.symm
        · exact hk' (List.mem_map.mpr ⟨x, hx', hfst⟩)
      · exact ih hrest

lemma containsKey_eq {β : Type} (k : Str) :
    ∀ m : List (Str × β), containsKey k m = (lookupAssoc k m).isSome := by
  intro m
  induction m with
  | nil => rfl
  | cons p rest ih =>
    obtain ⟨k', v'⟩ := p
    simp only [containsKey, List.any_cons, lookupAssoc]
    by_cases h : k' = k
    · simp [h]
    · have hbeq : (k' == k) = false := by simp [h]
      rw [hbeq, Bool.false_or, if_neg h]
      exact ih

lemma contains_iff_mem {α : Type} [BEq α] [LawfulBEq α] {a : α} {l : List α} :
    l.contains a = true ↔ a ∈ l := List.elem_iff

/-- A generic invariant-preservation principle for `List.foldl`. -/
lemma foldl_preserve {β γ : Type} {P : γ → Prop} (f : γ → β → γ)
    (hf : ∀ m b, P m → P (f m b)) : ∀ (l : List β) (m : γ), P m → P (l.foldl f m) := by
  intro l
  induction l with
  | nil => intro m hm; exact hm
  | cons b bs ih => intro m hm; exact ih (f m b) (hf m b hm)

lemma lookupAssoc_addRecipeVar {k : Str} {v : Option Str} {m : VarMap} {nm : Str}
    (h : lookupAssoc k m = some v) : lookupAssoc k (addRecipeVar m nm) = some v := by
  unfold addRecipeVar
  split
  · exact h
  · split
    · exact h
    case isFalse hcont =>
      have hne : nm ≠ k := by
        intro heq
        subst heq
        rw [containsKey_eq, h] at hcont
        exact hcont rfl
      rw [lookupAssoc_insertAssoc_ne _ hne]
      exact h

lemma keysNodup_addRecipeVar (m : VarMap) (nm : Str) (h : keysNodup m) :
    keysNodup (addRecipeVar m nm) := by
  unfold addRecipeVar
  split
  · exact h
  · split
    · exact h
    · exact keysNodup_insertAssoc _ _ h

lemma keysNodup_comment_hints (lines : List Str) (t : Nat) :
    keysNodup (comment_hints lines t) := by
  unfold comment_hints
  exact foldl_preserve _ (fun m b hm => keysNodup_insertAssoc _ _ hm) _ []
    (by simp [keysNodup])

lemma keysNodup_var_hints (lines : List Str) (t : Nat) : keysNodup (var_hints lines t) := by
  unfold var_hints
  exact foldl_preserve _
    (fun m l hm => foldl_preserve _ (fun m' nm hm' => keysNodup_addRecipeVar m' nm hm') _ m hm)
    _ _ (keysNodup_comment_hints lines t)

lemma comment_hints_values_some (lines : List Str) (t : Nat) :
    ∀ p ∈ comment_hints lines t, (p.2).isSome = true := by
  unfold comment_hints
  have hstep : ∀ (m : VarMap) (b : Str × Str), (∀ p ∈ m, (p.2).isSome = true) →
      ∀ p ∈ insertAssoc b.1 (some b.2) m, (p.2).isSome = true := by
    intro m b hm p hp
    rcases mem_insertAssoc hp with rfl | hp'
    · rfl
    · exact hm p hp'
  exact foldl_preserve (P := fun m : VarMap => ∀ p ∈ m, (p.2).isSome = true) _ hstep
    (hintScan (comment_text lines t)) [] (by simp)

lemma var_hints_lookup_of_comment {lines : List Str} {t : Nat} {nm : Str} {hv : Option Str}
    (hl : lookupAssoc nm (comment_hints lines t) = some hv) :
    lookupAssoc nm (var_hints lines t) = some hv := by
  unfold var_hints
  apply foldl_preserve (P := fun m => lookupAssoc nm m = some hv)
  · intro m l hm
    exact foldl_preserve (P := fun m' => lookupAssoc nm m' = some hv) addRecipeVar
      (fun m' b hm' => lookupAssoc_addRecipeVar hm') _ m hm
  · exact hl

lemma var_hints_none_not_builtin (lines : List Str) (t : Nat) :
    ∀ p ∈ var_hints lines t, p.2 = none → ¬ p.1 ∈ builtin_vars := by
  unfold var_hints
  have hstep1 : ∀ (m : VarMap) (nm : Str), (∀ p ∈ m, p.2 = none → ¬ p.1 ∈ builtin_vars) →
      ∀ p ∈ addRecipeVar m nm, p.2 = none → ¬ p.1 ∈ builtin_vars := by
    intro m' nm hm' p hp hnone
    unfold addRecipeVar at hp
    split at hp
    · exact hm' p hp hnone
    case isFalse hbuiltin =>
      split at hp
      · exact hm' p hp hnone
      · rcases mem_insertAssoc hp with rfl | hp'
        · intro hmem
          exact hbuiltin (contains_iff_mem.mpr hmem)
        · exact hm' p hp' hnone
  have hstep2 : ∀ (m : VarMap) (l : Str), (∀ p ∈ m, p.2 = none → ¬ p.1 ∈ builtin_vars) →
      ∀ p ∈ (recipeVarNames l).foldl addRecipeVar m, p.2 = none → ¬ p.1 ∈ builtin_vars :=
    fun m l hm =>
      foldl_preserve (P := fun m' : VarMap => ∀ p ∈ m', p.2 = none → ¬ p.1 ∈ builtin_vars)
        addRecipeVar hstep1 (recipeVarNames l) m hm
  have hbase : ∀ p ∈ comment_hints lines t, p.2 = none → ¬ p.1 ∈ builtin_vars := by
    intro p hp hnone
    have hsome := comment_hints_values_some lines t p hp
    rw [hnone] at hsome
    cases hsome
  exact foldl_preserve (P := fun m : VarMap => ∀ p ∈ m, p.2 = none → ¬ p.1 ∈ builtin_vars)
    _ hstep2 (recipe_lines (lines.drop (t + 1))) (comment_hints lines t) hbase

/-! Lemmas about the parse loop and the cross-file merge. -/

lemma bool_or_eq_false {a b : Bool} (h : ¬(a || b) = true) : a = false ∧ b = false := by
  cases a <;> cases b <;> simp_all

lemma bool_guard_imp : ∀ a b : Bool, ¬(a && !b) = true → a = true → b = true := by decide

lemma drop_eq_cons_getD {α : Type} (d : α) :
    ∀ (l : List α) (i : Nat) (a : α) (r : List α), l.drop i = a :: r → l.getD i d = a := by
  intro l
  induction l with
  | nil => intro i a r h; rw [List.drop_nil] at h; cases h
  | cons b bs ih =>
    intro i a r h
    cases i with
    | zero =>
      rw [List.drop_zero] at h
      cases h
      rfl
    | succ i =>
      rw [List.drop_succ_cons] at h
      simpa using ih i a r h

lemma finalizeVars_perm_eq {m₁ m₂ : VarMap} (hp : m₁.Perm m₂) (hn : keysNodup m₁) :
    finalizeVars m₁ = finalizeVars m₂ := by
  have htot : ∀ a b : RequiredVar, (requiredVarLe a b || requiredVarLe b a) = true :=
    fun a b => strLe_total a.name b.name
  have htrans : ∀ a b c : RequiredVar,
      requiredVarLe a b = true → requiredVarLe b c = true → requiredVarLe a c = true :=
    fun a b c => strLe_trans a.name b.name c.name
  apply sorted_key_eq RequiredVar.name
  · exact (sortBy_perm _ _).trans (((hp.map _)).trans (sortBy_perm _ _).symm)
  · exact sortBy_sorted _ htot htrans _
  · exact sortBy_sorted _ htot htrans _
  · have hmap : ((m₁.map (fun p => RequiredVar.mk p.1 p.2)).map RequiredVar.name) =
        m₁.map Prod.fst := by
      rw [List.map_map]; rfl
    have hperm : ((sortBy requiredVarLe (m₁.map (fun p => RequiredVar.mk p.1 p.2))).map
        RequiredVar.name).Perm (m₁.map Prod.fst) :=
      hmap ▸ (sortBy_perm _ _).map RequiredVar.name
    exact hperm.nodup_iff.mpr hn

lemma parseAux_congr (lines : List Str) (file : Str) (options : ParseOptions)
    {rv₁ rv₂ : Nat → List RequiredVar} (h : ∀ i, rv₁ i = rv₂ i) :
    ∀ (rem : List Str) (n : Nat) (seen : List Str),
      parseAux lines file options rv₁ rem n seen =
      parseAux lines file options rv₂ rem n seen := by
  intro rem
  induction rem with
  | nil => intro n seen; rfl
  | cons l rest ih =>
    intro n seen
    simp only [parseAux]
    split
    · exact ih _ _
    split
    · exact ih _ _
    split
    · exact ih _ _
    split
    · exact ih _ _
    split
    · exact ih _ _
    split
    · exact ih _ _
    rw [h n, ih _ _]

/-- Everything that is true of a target emitted by the parse loop: its shape,
that its declaration line captures its name through the target regex, that
its line is classified as neither kind of assignment, and that it respects
the pattern/private options. -/
lemma parseAux_mem_spec (lines : List Str) (file : Str) (options : ParseOptions)
    (rv : Nat → List RequiredVar) :
    ∀ (rem : List Str) (n : Nat) (seen : List Str),
      rem = lines.drop n →
      ∀ t ∈ parseAux lines file options rv rem n seen,
      ∃ i, t.line = i + 1 ∧
        t.description = extract_description lines i ∧
        t.required_vars = rv i ∧
        t.file = file ∧
        target_regex_capture (trim (lines.getD i [])) = some t.name ∧
        is_variable_assignment (trim (lines.getD i [])) = false ∧
        is_target_specific_variable (trim (lines.getD i [])) = false ∧
        (t.name.contains '%' = true → options.include_patterns = true) ∧
        (t.name.head? = some '_' → options.include_private = true) := by
  intro rem
  induction rem with
  | nil => intro n seen _ t ht; cases ht
  | cons l rest ih =>
    intro n seen hinv t ht
    have hl : lines.getD n [] = l := drop_eq_cons_getD [] lines n l rest hinv.symm
    have hrest : rest = lines.drop (n + 1) := by
      have h1 : List.drop 1 (l :: rest) = List.drop 1 (lines.drop n) := by rw [hinv]
      simpa [List.drop_drop] using h1
    simp only [parseAux] at ht
    split at ht
    · exact ih _ _ hrest t ht
    case isFalse hskip =>
      split at ht
      · exact ih _ _ hrest t ht
      case isFalse hassign =>
        split at ht
        · exact ih _ _ hrest t ht
        case h_2 tn hcap =>
          split at ht
          · exact ih _ _ hrest t ht
          case isFalse hpat =>
            split at ht
            · exact ih _ _ hrest t ht
            case isFalse hpriv =>
              split at ht
              · exact ih _ _ hrest t ht
              case isFalse hseen =>
                rcases List.mem_cons.mp ht with rfl | ht'
                · obtain ⟨hva, htsv⟩ := bool_or_eq_false hassign
                  refine ⟨n, rfl, rfl, rfl, rfl, ?_, ?_, ?_, ?_, ?_⟩
                  · rw [hl]; exact hcap
                  · rw [hl]; exact hva
                  · rw [hl]; exact htsv
                  · exact bool_guard_imp _ _ hpat
                  · intro hhead
                    exact bool_guard_imp _ _ hpriv (beq_iff_eq.mpr hhead)
                · exact ih _ _ hrest t ht'

lemma parseAux_names_nodup (lines : List Str) (file : Str) (options : ParseOptions)
    (rv : Nat → List RequiredVar) :
    ∀ (rem : List Str) (n : Nat) (seen : List Str),
      ((parseAux lines file options rv rem n seen).map Target.name).Nodup ∧
      ∀ t ∈ parseAux lines file options rv rem n seen, ¬ t.name ∈ seen := by
  intro rem
  induction rem with
  | nil =>
    intro n seen
    exact ⟨List.nodup_nil, fun t ht => absurd ht (List.not_mem_nil t)⟩
  | cons l rest ih =>
    intro n seen
    simp only [parseAux]
    split
    · exact ih _ _
    split
    · exact ih _ _
    split
    · exact ih _ _
    case h_2 tn hcap =>
      split
      · exact ih _ _
      split
      · exact ih _ _
      split
      · exact ih _ _
      case isFalse hseen =>
        constructor
        · rw [List.map_cons, List.nodup_cons]
          constructor
          · intro hmem
            obtain ⟨t', ht', hname⟩ := List.mem_map.mp hmem
            exact (ih (n + 1) (tn :: seen)).2 t' ht' (hname ▸ List.mem_cons_self tn seen)
          · exact (ih _ _).1
        · intro t ht
          rcases List.mem_cons.mp ht with rfl | ht'
          · exact fun hmem => hseen (contains_iff_mem.mpr hmem)
          · exact fun hmem =>
              (ih (n + 1) (tn :: seen)).2 t ht' (List.mem_cons_of_mem _ hmem)

lemma dedupByName_spec :
    ∀ (l : List Target) (seen : List Str),
      ((dedupByName seen l).map Target.name).Nodup ∧
      ∀ t ∈ dedupByName seen l,
        ¬ t.name ∈ seen ∧ l.find? (fun x => x.name == t.name) = some t := by
  intro l
  induction l with
  | nil =>
    intro seen
    exact ⟨List.nodup_nil, fun t ht => absurd ht (List.not_mem_nil t)⟩
  | cons x ts ih =>
    intro seen
    simp only [dedupByName]
    split
    case isTrue hseen =>
      refine ⟨(ih seen).1, ?_⟩
      intro t ht
      obtain ⟨hns, hfind⟩ := (ih seen).2 t ht
      refine ⟨hns, ?_⟩
      have hne : (x.name == t.name) = false := by
        rw [beq_eq_false_iff_ne]
        intro he
        exact hns (he ▸ contains_iff_mem.mp hseen)
      rw [List.find?_cons_of_neg _ (by simp [hne]), hfind]
    case isFalse hseen =>
      constructor
      · rw [List.map_cons, List.nodup_cons]
        constructor
        · intro hmem
          obtain ⟨t', ht', hname⟩ := List.mem_map.mp hmem
          exact ((ih (x.name :: seen)).2 t' ht').1 (hname ▸ List.mem_cons_self _ _)
        · exact (ih _).1
      · intro t ht
        rcases List.mem_cons.mp ht with rfl | ht'
        · refine ⟨fun hm => hseen (contains_iff_mem.mpr hm), ?_⟩
          rw [List.find?_cons_of_pos _ (by simp)]
        · obtain ⟨hns, hfind⟩ := (ih (x.name :: seen)).2 t ht'
          have hnx : t.name ≠ x.name := fun he => hns (he ▸ List.mem_cons_self _ _)
          refine ⟨fun hm => hns (List.mem_cons_of_mem _ hm), ?_⟩
          have hne : (x.name == t.name) = false := by
            rw [beq_eq_false_iff_ne]
            exact fun he => hnx he.symm
          rw [List.find?_cons_of_neg _ (by simp [hne]), hfind]

/-! The claims. -/

/-- Claim C1: for every persisted cache state, the cache-load operation as
performed by its callers in `src/main.rs` (`Cache::load().unwrap_or_else(|_|
Cache::new())`, embedded as `load_or_new`) produces a fresh empty cache —
current version, no entries — when the cache file is missing, when its
content fails to parse, and when its version differs from `CURRENT_VERSION`;
`load_or_new` returns a plain `Cache`, so none of these cases fails the
caller with an error.  `Cache::load` itself already returns the fresh cache
for a missing file and for a version mismatch (for a parse failure it
returns `Err`, which the caller converts). -/
theorem c1_cache_load_recovers :
    load_or_new CacheFileState.missing = Cache.new ∧
    load_or_new CacheFileState.malformed = Cache.new ∧
    (∀ c : Cache, c.version ≠ CURRENT_VERSION →
      load_or_new (CacheFileState.parsed c) = Cache.new) ∧
    Cache.load CacheFileState.missing = Except.ok Cache.new ∧
    (∀ c : Cache, c.version ≠ CURRENT_VERSION →
      Cache.load (CacheFileState.parsed c) = Except.ok Cache.new) ∧
    Cache.new.version = CURRENT_VERSION ∧ Cache.new.entries = [] := by
  refine ⟨rfl, rfl, ?_, rfl, ?_, rfl, rfl⟩
  · intro c hv
    simp [load_or_new, Cache.load, hv]
  · intro c hv
    simp [Cache.load, hv]

theorem c1_cache_load_recovers_witness :
    (⟨0, []⟩ : Cache).version ≠ CURRENT_VERSION ∧
    load_or_new (CacheFileState.parsed ⟨0, []⟩) = Cache.new :=
  ⟨by decide, c1_cache_load_recovers.2.2.1 ⟨0, []⟩ (by decide)⟩

/-- Claim C2: the line classifier is a correct three-way disambiguator on the
spec's examples — `"build:"` is a target declaration and neither kind of
assignment, `"CC := gcc"` is a plain assignment only, `"build: CC := clang"`
is a target-scoped assignment only even though the target regex would also
capture `build` from it — and, because the two assignment checks run before
the target regex in `parse_makefile_content`, the declaration line of every
emitted target satisfies neither assignment predicate. -/
theorem c2_line_classifier :
    (is_variable_assignment "build:".data = false ∧
     is_target_specific_variable "build:".data = false ∧
     target_regex_capture "build:".data = some "build".data) ∧
    (is_variable_assignment "CC := gcc".data = true ∧
     is_target_specific_variable "CC := gcc".data = false) ∧
    (is_variable_assignment "build: CC := clang".data = false ∧
     is_target_specific_variable "build: CC := clang".data = true ∧
     target_regex_capture "build: CC := clang".data = some "build".data) ∧
    (∀ (content file : Str) (options : ParseOptions) (ts : List Target),
      parse_makefile_content content file options = Except.ok ts →
      ∀ t ∈ ts, ∃ i, t.line = i + 1 ∧
        is_variable_assignment (trim ((splitLines content).getD i [])) = false ∧
        is_target_specific_variable (trim ((splitLines content).getD i [])) = false) := by
  refine ⟨⟨by decide, by decide, by decide⟩, ⟨by decide, by decide⟩,
    ⟨by decide, by decide, by decide⟩, ?_⟩
  intro content file options ts hok t ht
  simp only [parse_makefile_content] at hok
  injection hok with hts
  rw [← hts] at ht
  obtain ⟨i, hline, _, _, _, _, hva, htsv, _, _⟩ :=
    parseAux_mem_spec _ _ _ _ _ 0 [] (List.drop_zero _).symm t ht
  exact ⟨i, hline, hva, htsv⟩

theorem c2_line_classifier_witness :
    ∃ i, (⟨"build".data, none, "Makefile".data, 1, []⟩ : Target).line = i + 1 ∧
      is_variable_assignment (trim ((splitLines "build:\n".data).getD i [])) = false ∧
      is_target_specific_variable (trim ((splitLines "build:\n".data).getD i [])) = false :=
  c2_line_classifier.2.2.2 "build:\n".data "Makefile".data ⟨false, false⟩ _ rfl
    ⟨"build".data, none, "Makefile".data, 1, []⟩ (by decide)

/-- Claim C3: `set(path, targets)` followed by `get(path)` over an unchanged
file returns `some targets`; if the content read back at `get` time hashes
differently, `get` returns `none`; and a canonicalization or read failure
during `get` is a cache miss (`none`), never an error.  The SHA-256 of the
`sha2` crate enters as the abstract `hashFn`. -/
theorem c3_cache_round_trip
    (hashFn : Str → Str) (fs : FileSystem) (c : Cache) (path abs content : Str)
    (targets : List Target)
    (hcanon : fs.canonicalize path = some abs)
    (hread : fs.read_to_string path = some content) :
    (∃ c', Cache.set hashFn fs c path targets = Except.ok c' ∧
       Cache.get hashFn fs c' path = some targets) ∧
    (∀ (fs₂ : FileSystem) (content₂ : Str) (c' : Cache),
       Cache.set hashFn fs c path targets = Except.ok c' →
       fs₂.canonicalize path = some abs →
       fs₂.read_to_string path = some content₂ →
       hashFn content₂ ≠ hashFn content →
       Cache.get hashFn fs₂ c' path = none) ∧
    (∀ (fs' : FileSystem) (c₀ : Cache), fs'.canonicalize path = none →
       Cache.get hashFn fs' c₀ path = none) ∧
    (∀ (fs' : FileSystem) (c₀ : Cache),
       fs'.canonicalize path = some abs → fs'.read_to_string path = none →
       Cache.get hashFn fs' c₀ path = none) := by
  refine ⟨?_, ?_, ?_, ?_⟩
  · refine ⟨Cache.mk c.version
        (insertAssoc abs
          (CacheEntry.mk (hashFn content) ((fs.modified_time path).getD 0) targets)
          c.entries),
      ?_, ?_⟩
    · simp [Cache.set, hcanon, hread]
    · simp [Cache.get, hcanon, lookupAssoc_insertAssoc_self, Cache.is_entry_valid, hread]
  · intro fs₂ content₂ c' hset hcanon₂ hread₂ hne
    simp only [Cache.set, hcanon, hread, Except.ok.injEq] at hset
    rw [← hset]
    simp [Cache.get, hcanon₂, lookupAssoc_insertAssoc_self, Cache.is_entry_valid, hread₂, hne]
  · intro fs' c₀ h
    simp [Cache.get, h]
  · intro fs' c₀ hc hr
    cases hlook : lookupAssoc abs c₀.entries with
    | none => simp [Cache.get, hc, hlook]
    | some entry => simp [Cache.get, hc, hlook, Cache.is_entry_valid, hr]

/-- A concrete file system for the cache witnesses: canonicalization is the
identity, every file reads as `"a"`, no modification times. -/
def witnessFs : FileSystem :=
  ⟨fun p => some p, fun _ => some "a".data, fun _ => none⟩

theorem c3_cache_round_trip_witness :
    ∃ c', Cache.set (fun s => s) witnessFs Cache.new "Makefile".data [] = Except.ok c' ∧
      Cache.get (fun s => s) witnessFs c' "Makefile".data = some [] :=
  (c3_cache_round_trip (fun s => s) witnessFs Cache.new "Makefile".data "Makefile".data
    "a".data [] rfl rfl).1

/-- The lines of the spec's deploy example: a usage comment with an `ENV`
hint above a recipe referencing both `$(ENV)` and `$(VERSION)`. -/
def deployLines : List Str :=
  splitLines
    "# Deploy (usage: make deploy ENV=dev|staging|prod)\ndeploy:\n\t@echo \"Deploying to $(ENV) with version $(VERSION)\"\n".data

/-- Claim C4: on the spec's deploy example the derived required variables are
exactly `ENV` with hint `dev|staging|prod` and `VERSION` with no hint; in
general a variable given a hint by the comment phase keeps that hint in the
final result (the recipe scan inserts only absent names), a hint-less result
variable is never a built-in make variable (the recipe scan skips
built-ins), and the result is sorted by variable name. -/
theorem c4_required_vars_merge :
    (extract_required_vars deployLines 1 =
      [⟨"ENV".data, some "dev|staging|prod".data⟩, ⟨"VERSION".data, none⟩]) ∧
    (∀ (lines : List Str) (t : Nat) (nm h : Str),
      lookupAssoc nm (comment_hints lines t) = some (some h) →
      RequiredVar.mk nm (some h) ∈ extract_required_vars lines t) ∧
    (∀ (lines : List Str) (t : Nat) (v : RequiredVar),
      v ∈ extract_required_vars lines t → v.hint = none → ¬ v.name ∈ builtin_vars) ∧
    (∀ (lines : List Str) (t : Nat),
      (extract_required_vars lines t).Pairwise (fun a b => requiredVarLe a b = true)) := by
  refine ⟨rfl, ?_, ?_, ?_⟩
  · intro lines t nm h hlook
    have h2 : lookupAssoc nm (var_hints lines t) = some (some h) :=
      var_hints_lookup_of_comment hlook
    have h3 : (nm, some h) ∈ var_hints lines t := lookupAssoc_mem h2
    have h4 : RequiredVar.mk nm (some h) ∈
        (var_hints lines t).map (fun p => RequiredVar.mk p.1 p.2) :=
      List.mem_map.mpr ⟨(nm, some h), h3, rfl⟩
    exact (sortBy_perm requiredVarLe _).mem_iff.mpr h4
  · intro lines t v hv hnone
    have hv' : v ∈ (var_hints lines t).map (fun p => RequiredVar.mk p.1 p.2) :=
      (sortBy_perm requiredVarLe _).mem_iff.mp hv
    obtain ⟨p, hp, hpv⟩ := List.mem_map.mp hv'
    have hp2 : p.2 = none := by rw [← hpv] at hnone; exact hnone
    have hb := var_hints_none_not_builtin lines t p hp hp2
    rw [← hpv]
    exact hb
  · intro lines t
    exact sortBy_sorted _ (fun a b => strLe_total a.name b.name)
      (fun a b c => strLe_trans a.name b.name c.name) _

theorem c4_required_vars_merge_witness :
    RequiredVar.mk "ENV".data (some "dev|staging|prod".data) ∈
      extract_required_vars deployLines 1 :=
  c4_required_vars_merge.2.1 deployLines 1 "ENV".data "dev|staging|prod".data rfl

/-- Claim C5 counterexample: on the file `"# hello\nx: ##"` the declaration
line (index 1) contains the marker `##` at position 3, yet the description
is `"hello"`, taken from the preceding comment — not the trimmed (empty)
text following the marker, which the claim says takes priority over
preceding comment lines. -/
theorem c5_description_counterexample :
    findSub ['#', '#'] ((splitLines "# hello\nx: ##".data).getD 1 []) = some 3 ∧
    extract_description (splitLines "# hello\nx: ##".data) 1 = some "hello".data ∧
    some (trim (((splitLines "# hello\nx: ##".data).getD 1 []).drop (3 + 2))) ≠
      some "hello".data :=
  ⟨rfl, rfl, by decide⟩

/-- Claim C5 (amended): if the declaration line contains `##` and the
trimmed text after the first `##` is non-empty, that text is the
description, taking priority over preceding comments; when the text after
`##` is empty the preceding-comment walk applies instead.  Otherwise the
contiguous immediately-preceding comment lines (stripped of leading `#`,
with a blank line stepped over only when a comment line precedes it) are
joined in source order with single spaces, and with no comments the
description is absent. -/
theorem c5_description_amended :
    (∀ (lines : List Str) (t : Nat) (pos : Nat),
      findSub ['#', '#'] (lines.getD t []) = some pos →
      trim ((lines.getD t []).drop (pos + 2)) ≠ [] →
      extract_description lines t =
        some (trim ((lines.getD t []).drop (pos + 2)))) ∧
    (extract_description
        (splitLines "# A comment\ntest: ## Run all tests\n\techo ok\n".data) 1 =
      some "Run all tests".data) ∧
    (extract_description (splitLines "# one\n# two\nbuild:\n".data) 2 =
      some "one two".data) ∧
    (extract_description (splitLines "# desc\n\nbuild:\n".data) 2 = some "desc".data) ∧
    (extract_description (splitLines "other:\n\nbuild:\n".data) 2 = none) ∧
    (extract_description (splitLines "build:\n".data) 0 = none) := by
  refine ⟨?_, rfl, rfl, rfl, rfl, rfl⟩
  intro lines t pos hpos hne
  have hfalse : (trim ((lines.getD t []).drop (pos + 2))).isEmpty = false := by
    cases h : trim ((lines.getD t []).drop (pos + 2)) with
    | nil => exact absurd h hne
    | cons a l => rfl
  simp only [extract_description]
  rw [hpos]
  simp only [hfalse, Bool.not_false, if_true]

theorem c5_description_amended_witness :
    extract_description (splitLines "x: ## Run\n".data) 0 =
      some (trim (((splitLines "x: ## Run\n".data).getD 0 []).drop (3 + 2))) :=
  c5_description_amended.1 _ 0 3 rfl (by decide)

/-- Claim C6: two declarations of `build` in one file yield exactly one
`Target`, carrying the first occurrence's 1-indexed line number and the
first occurrence's description; and in general the names of the targets
returned for one file are pairwise distinct. -/
theorem c6_duplicate_suppression :
    (parse_makefile_content
        "# first\nbuild: ## one\n\n# second\nbuild: ## two\n".data "Makefile".data
        ⟨false, false⟩ =
      Except.ok [⟨"build".data, some "one".data, "Makefile".data, 2, []⟩]) ∧
    (∀ (content file : Str) (options : ParseOptions) (ts : List Target),
      parse_makefile_content content file options = Except.ok ts →
      (ts.map Target.name).Nodup) := by
  refine ⟨rfl, ?_⟩
  intro content file options ts hok
  simp only [parse_makefile_content] at hok
  injection hok with hts
  rw [← hts]
  exact (parseAux_names_nodup _ _ _ _ _ 0 []).1

theorem c6_duplicate_suppression_witness :
    (([⟨"build".data, none, "m".data, 1, []⟩] : List Target).map Target.name).Nodup :=
  c6_duplicate_suppression.2 "build:\n".data "m".data ⟨false, false⟩ _ rfl

/-- Claim C7: for the file declaring `_internal:` and `%.o: %.c`, the four
option combinations yield exactly the expected target sets; and in general
an emitted target whose name contains `%` forces `include_patterns = true`
and one whose name starts with `_` forces `include_private = true`. -/
theorem c7_private_pattern_filtering :
    (parse_makefile_content "_internal:\n\techo hidden\n%.o: %.c\n\t$(CC) -c $<\n".data
        "Makefile".data ⟨false, false⟩ = Except.ok []) ∧
    (parse_makefile_content "_internal:\n\techo hidden\n%.o: %.c\n\t$(CC) -c $<\n".data
        "Makefile".data ⟨true, false⟩ =
      Except.ok [⟨"_internal".data, none, "Makefile".data, 1, []⟩]) ∧
    (parse_makefile_content "_internal:\n\techo hidden\n%.o: %.c\n\t$(CC) -c $<\n".data
        "Makefile".data ⟨false, true⟩ =
      Except.ok [⟨"%.o".data, none, "Makefile".data, 3, []⟩]) ∧
    (parse_makefile_content "_internal:\n\techo hidden\n%.o: %.c\n\t$(CC) -c $<\n".data
        "Makefile".data ⟨true, true⟩ =
      Except.ok [⟨"_internal".data, none, "Makefile".data, 1, []⟩,
                 ⟨"%.o".data, none, "Makefile".data, 3, []⟩]) ∧
    (∀ (content file : Str) (options : ParseOptions) (ts : List Target) (t : Target),
      parse_makefile_content content file options = Except.ok ts → t ∈ ts →
      (t.name.contains '%' = true → options.include_patterns = true) ∧
      (t.name.head? = some '_' → options.include_private = true)) := by
  refine ⟨rfl, rfl, rfl, rfl, ?_⟩
  intro content file options ts t hok ht
  simp only [parse_makefile_content] at hok
  injection hok with hts
  rw [← hts] at ht
  obtain ⟨i, _, _, _, _, _, _, _, hpat, hpriv⟩ :=
    parseAux_mem_spec _ _ _ _ _ 0 [] (List.drop_zero _).symm t ht
  exact ⟨hpat, hpriv⟩

theorem c7_private_pattern_filtering_witness :
    ((⟨"%.o".data, none, "Makefile".data, 3, []⟩ : Target).name.contains '%' = true →
      (⟨false, true⟩ : ParseOptions).include_patterns = true) ∧
    ((⟨"%.o".data, none, "Makefile".data, 3, []⟩ : Target).name.head? = some '_' →
      (⟨false, true⟩ : ParseOptions).include_private = true) :=
  c7_private_pattern_filtering.2.2.2.2
    "_internal:\n\techo hidden\n%.o: %.c\n\t$(CC) -c $<\n".data "Makefile".data
    ⟨false, true⟩ _ ⟨"%.o".data, none, "Makefile".data, 3, []⟩ rfl (by decide)

/-- Claim C8: the cross-file merge delivers each target name at most once,
keeps for each name the occurrence that comes first in the concatenation of
the per-file lists in discovery order (`find?` finds exactly the delivered
element), and sorts the result by target name. -/
theorem c8_cross_file_merge (per_file : List (List Target)) :
    ((merge_targets per_file).map Target.name).Nodup ∧
    (merge_targets per_file).Pairwise (fun a b => targetLe a b = true) ∧
    ∀ t ∈ merge_targets per_file,
      per_file.flatten.find? (fun x => x.name == t.name) = some t := by
  refine ⟨?_, ?_, ?_⟩
  · have hperm : ((sortBy targetLe (dedupByName [] per_file.flatten)).map Target.name).Perm
        ((dedupByName [] per_file.flatten).map Target.name) :=
      (sortBy_perm _ _).map _
    exact hperm.nodup_iff.mpr (dedupByName_spec per_file.flatten []).1
  · exact sortBy_sorted _ (fun a b => strLe_total a.name b.name)
      (fun a b c => strLe_trans a.name b.name c.name) _
  · intro t ht
    have ht' : t ∈ dedupByName [] per_file.flatten :=
      (sortBy_perm _ _).mem_iff.mp ht
    exact ((dedupByName_spec per_file.flatten []).2 t ht').2

theorem c8_cross_file_merge_witness :
    ([[⟨"b".data, none, "f1".data, 1, []⟩], [⟨"b".data, none, "f2".data, 1, []⟩]] :
        List (List Target)).flatten.find?
      (fun x => x.name == (⟨"b".data, none, "f1".data, 1, []⟩ : Target).name) =
      some ⟨"b".data, none, "f1".data, 1, []⟩ :=
  (c8_cross_file_merge _).2.2 ⟨"b".data, none, "f1".data, 1, []⟩ (by decide)

/-- Claim C9: extraction is deterministic.  The only unspecified order in
`parse_makefile_content` is the iteration over the `var_hints` hash map
before the final sort; for any two materializations of that map (any
permutations of its entries), the two runs produce identical results, equal
to the canonical `parse_makefile_content`. -/
theorem c9_extraction_deterministic (content file : Str) (options : ParseOptions)
    (ord₁ ord₂ : Nat → VarMap)
    (h₁ : ∀ i, (ord₁ i).Perm (var_hints (splitLines content) i))
    (h₂ : ∀ i, (ord₂ i).Perm (var_hints (splitLines content) i)) :
    parse_makefile_content_ord ord₁ content file options =
      parse_makefile_content_ord ord₂ content file options ∧
    parse_makefile_content_ord ord₁ content file options =
      parse_makefile_content content file options := by
  have key : ∀ (ord : Nat → VarMap),
      (∀ i, (ord i).Perm (var_hints (splitLines content) i)) →
      ∀ i, finalizeVars (ord i) = extract_required_vars (splitLines content) i := by
    intro ord h i
    exact finalizeVars_perm_eq (h i)
      (((h i).map Prod.fst).nodup_iff.mpr (keysNodup_var_hints (splitLines content) i))
  have e₁ : parse_makefile_content_ord ord₁ content file options =
      parse_makefile_content content file options := by
    simp only [parse_makefile_content_ord, parse_makefile_content]
    rw [parseAux_congr _ _ _ (key ord₁ h₁)]
  have e₂ : parse_makefile_content_ord ord₂ content file options =
      parse_makefile_content content file options := by
    simp only [parse_makefile_content_ord, parse_makefile_content]
    rw [parseAux_congr _ _ _ (key ord₂ h₂)]
  exact ⟨e₁.trans e₂.symm, e₁⟩

theorem c9_extraction_deterministic_witness :
    parse_makefile_content_ord (fun i => var_hints (splitLines "build:\n".data) i)
        "build:\n".data "Makefile".data ⟨false, false⟩ =
      parse_makefile_content "build:\n".data "Makefile".data ⟨false, false⟩ :=
  (c9_extraction_deterministic "build:\n".data "Makefile".data ⟨false, false⟩ _ _
    (fun _ => List.Perm.refl _) (fun _ => List.Perm.refl _)).2

/-- Claim C10: `parse_makefile_content` returns `Ok` on every input.  Its
only fallible step in the source is `Regex::new` on the two fixed literal
patterns, which are valid and always compile, so the embedding's single exit
is `Except.ok` and no content, path or options make extraction error. -/
theorem c10_parse_total (content file : Str) (options : ParseOptions) :
    ∃ ts, parse_makefile_content content file options = Except.ok ts :=
  ⟨_, rfl⟩

end Maki
